import Mathlib

/-!
Verification of the signal-extraction core of the trading-alert OCR bot
(src/signal_parser.py).  The Python module is shallowly embedded: strings
become `List Char`, the per-field regular expressions become either compiled
scanning functions (labeled-line path) or a small backtracking matcher over a
pattern AST with Python `re` semantics (cascade path), and the record dict
becomes a structure of five optional fields.
-/

namespace SignalSpec

/-- Shorthand: the character list of a string literal. -/
def str (s : String) : List Char := s.data

/-- Python regex `\s` / `str.strip` whitespace, restricted to ASCII. -/
def wsChar (c : Char) : Bool :=
  c = ' ' || c = '\t' || c = '\n' || c = '\r' || c = '\x0b' || c = '\x0c'

/-- ASCII decimal digit (`\d`, `[0-9]`). -/
def digitChar (c : Char) : Bool := '0' ≤ c && c ≤ '9'

/-- ASCII letter: `[A-Z]` under `re.IGNORECASE`, and `str.isalpha` (ASCII model). -/
def alphaChar (c : Char) : Bool := ('A' ≤ c && c ≤ 'Z') || ('a' ≤ c && c ≤ 'z')

/-- Word character `\w` (ASCII model: letter, digit or underscore). -/
def wordChar (c : Char) : Bool := alphaChar c || digitChar c || c = '_'

/-- The class `[:\s]` used after every field label. -/
def wsColonChar (c : Char) : Bool := c = ':' || wsChar c

/-- The class `[0-9.,\s-]` of the entries/targets capture groups. -/
def priceChar (c : Char) : Bool :=
  digitChar c || c = '.' || c = ',' || c = '-' || wsChar c

/-- The class `[0-9.,]` of the stoploss capture groups. -/
def slChar (c : Char) : Bool := digitChar c || c = '.' || c = ','

/-- Python `str.strip()`. -/
def pyStrip (l : List Char) : List Char :=
  ((l.dropWhile wsChar).reverse.dropWhile wsChar).reverse

/-- Python `str.lower()` (ASCII model). -/
def lower (l : List Char) : List Char := l.map Char.toLower

/-- Python `str.upper()` (ASCII model). -/
def upper (l : List Char) : List Char := l.map Char.toUpper

/-- `re.sub(r'\s+', ' ', l)`: every maximal whitespace run becomes one space. -/
def collapseWs : List Char → List Char
  | [] => []
  | [c] => if wsChar c then [' '] else [c]
  | c :: d :: rest =>
    if wsChar c then
      if wsChar d then collapseWs (d :: rest) else ' ' :: collapseWs (d :: rest)
    else c :: collapseWs (d :: rest)

/-- Python `str.replace` for a two-character pattern `[p, q]` replaced by the
single character `r` (left-to-right, non-overlapping), as used by
`_clean_price_data`. -/
def repl2 (p q r : Char) : List Char → List Char
  | [] => []
  | [c] => [c]
  | c :: d :: rest =>
    if c = p ∧ d = q then r :: repl2 p q r rest
    else c :: repl2 p q r (d :: rest)

/-- `re.search(r'\d+\.?\d*', l)` succeeds exactly when `l` holds a digit
(the pattern needs one digit, everything else is optional). -/
def hasDigit (l : List Char) : Bool := l.any digitChar

/-- `SignalParser._clean_price_data` (src/signal_parser.py lines 271-287):
strip, collapse whitespace runs, drop the extra-space and dash-spacing
artifacts, and reject digit-free strings. -/
def clean_price_data (l : List Char) : List Char :=
  if l = [] then []
  else
    let t := collapseWs (pyStrip l)
    let c := repl2 '-' ' ' '-' (repl2 ' ' '-' '-' (repl2 ' ' ' ' ' ' t))
    if hasDigit c then c else []

/-- The parser's output dict: the five keys of a SignalRecord, each possibly
absent while the record is being accumulated. -/
structure SignalData where
  symbol : Option (List Char)
  signal_type : Option (List Char)
  entries : Option (List Char)
  targets : Option (List Char)
  stoploss : Option (List Char)
deriving DecidableEq

/-- The empty accumulator dict `signal_data = {}`. -/
def SignalData.empty : SignalData := ⟨none, none, none, none, none⟩

/-- Python truthiness of a dict lookup: the key is present and non-empty. -/
def fieldTruthy : Option (List Char) → Bool
  | none => false
  | some v => !v.isEmpty

/-- `SignalParser.validate_signal_data` (src/signal_parser.py lines 289-300):
all five fields present and truthy, and the direction canonical. -/
def validate_signal_data (d : SignalData) : Bool :=
  fieldTruthy d.symbol && fieldTruthy d.signal_type && fieldTruthy d.entries &&
  fieldTruthy d.targets && fieldTruthy d.stoploss &&
  (d.signal_type = some (str "LONG") || d.signal_type = some (str "SHORT"))

/-! ### Labeled-Line Parser (`_parse_structured_text`, lines 118-192)

The simple regexes of this path (`LABEL[:\s]*(.+)`, `symbol[:\s]*(\w+)`,
`(LONG|SHORT)`) are embedded as compiled scanning functions with `re.search`
semantics: leftmost position first, greedy quantifiers with backtracking.
Lines produced by `split('\n')` contain no newline, so `.` matches every
remaining character. -/

/-- Python `text.split('\n')` (keeps empty pieces). -/
def splitNl : List Char → List (List Char)
  | [] => [[]]
  | c :: rest =>
    match splitNl rest with
    | [] => [[]]
    | l :: ls => if c = '\n' then [] :: l :: ls else (c :: l) :: ls

/-- Case-insensitive literal prefix match; returns the remainder on success. -/
def ciPfx : List Char → List Char → Option (List Char)
  | [], cs => some cs
  | _ :: _, [] => none
  | a :: as, c :: cs => if a.toUpper = c.toUpper then ciPfx as cs else none

/-- Python `pat in hay` substring test (case-sensitive). -/
def hasSub (pat : List Char) : List Char → Bool
  | [] => decide (pat = [])
  | c :: rest => decide (pat <+: (c :: rest)) || hasSub pat rest

/-- Python `lines.index(x)`: index of the first equal element; `none` models
the `ValueError` that `list.index` raises when the element is absent. -/
def listIndex : List (List Char) → List Char → Option Nat
  | [], _ => none
  | y :: ys, x => if y = x then some 0 else (listIndex ys x).map (· + 1)

/-- One attempt of `re.search(r'LABEL[:\s]*(.+)', line)` at the current
position: after the label the greedy `[:\s]*` eats the label filler but gives
one character back when `(.+)` would otherwise be empty; `(.+)` then captures
greedily to the end of the (newline-free) line. -/
def labelTry (label cs : List Char) : Option (List Char) :=
  match ciPfx label cs with
  | none => none
  | some r =>
    if r = [] then none
    else some (r.drop (min ((r.takeWhile wsColonChar).length) (r.length - 1)))

/-- Leftmost-position search for `LABEL[:\s]*(.+)`, returning group 1. -/
def labelCapture (label : List Char) : List Char → Option (List Char)
  | [] => none
  | c :: rest => labelTry label (c :: rest) <|> labelCapture label rest

/-- One attempt of `re.search(r'symbol[:\s]*(\w+)', line)`: the classes
`[:\s]` and `\w` are disjoint, so the greedy filler never backtracks and the
group is the maximal word-character run. -/
def symTry (cs : List Char) : Option (List Char) :=
  match ciPfx (str "symbol") cs with
  | none => none
  | some r =>
    let g := (r.dropWhile wsColonChar).takeWhile wordChar
    if g = [] then none else some g

/-- Leftmost-position search for `symbol[:\s]*(\w+)`, returning group 1. -/
def symCapture : List Char → Option (List Char)
  | [] => none
  | c :: rest => symTry (c :: rest) <|> symCapture rest

/-- One attempt of `re.search(r'(LONG|SHORT)', line, re.IGNORECASE)`:
alternatives tried left to right, capture keeps the original casing. -/
def lsTry (cs : List Char) : Option (List Char) :=
  match ciPfx (str "LONG") cs with
  | some _ => some (cs.take 4)
  | none =>
    match ciPfx (str "SHORT") cs with
    | some _ => some (cs.take 5)
    | none => none

/-- Leftmost-position search for `(LONG|SHORT)`. -/
def scanLongShort : List Char → Option (List Char)
  | [] => none
  | c :: rest => lsTry (c :: rest) <|> scanLongShort rest

/-- `re.search(r'\d+\.\d+', l)` succeeds exactly when some digit is directly
followed by a dot and a digit. -/
def hasDecimal : List Char → Bool
  | c1 :: c2 :: c3 :: rest =>
    (digitChar c1 && c2 = '.' && digitChar c3) || hasDecimal (c2 :: c3 :: rest)
  | _ => false

/-- The forward scan of the targets block (lines 173-178): from index `i`,
at most `fuel` lines, return the first stripped line that is non-empty and
holds a dollar sign or a decimal number. -/
def scanAheadGo (lines : List (List Char)) : Nat → Nat → Option (List Char)
  | _, 0 => none
  | i, fuel + 1 =>
    match lines.get? i with
    | none => none
    | some raw =>
      let nl := pyStrip raw
      if nl ≠ [] ∧ (nl.contains '$' ∨ hasDecimal nl = true) then some nl
      else scanAheadGo lines (i + 1) fuel

/-- `for i in range(line_index + 1, min(line_index + 5, len(lines)))`. -/
def scanAhead (lines : List (List Char)) (idx : Nat) : Option (List Char) :=
  scanAheadGo lines (idx + 1) (min (idx + 5) lines.length - (idx + 1))

/-- Symbol section of the line loop (lines 131-139): on a `symbol:` line,
capture the word after the label, upper-case it, and apply the fixed OCR
misread table before storing. -/
def symbolStep (line : List Char) (d : SignalData) : SignalData :=
  if hasSub (str "symbol:") (lower line) then
    match symCapture line with
    | some g =>
      let s0 := upper g
      let s := if hasSub (str "SOLUSOT") s0 ∨ hasSub (str "SOLUSOТ") s0 then
                 str "SOLUSDT"
               else s0
      { d with symbol := some s }
    | none => d
  else d

/-- Signal-type section (lines 141-145): on a direction-labeled line, store
an upper-cased `LONG`/`SHORT` match; `BUY`/`SELL` are not recognized here. -/
def signalStep (line : List Char) (d : SignalData) : SignalData :=
  if hasSub (str "signaltype:") (lower line) ∨
     hasSub (str "signal type:") (lower line) then
    match scanLongShort line with
    | some g => { d with signal_type := some (upper g) }
    | none => d
  else d

/-- Entries section (lines 147-152): same-line capture only, trimmed. -/
def entriesStep (line : List Char) (d : SignalData) : SignalData :=
  if hasSub (str "entries:") (lower line) then
    match labelCapture (str "entries") line with
    | some g => { d with entries := some (pyStrip g) }
    | none => d
  else d

/-- Stop-loss section (lines 154-159): same-line capture only, trimmed. -/
def stoplossStep (line : List Char) (d : SignalData) : SignalData :=
  if hasSub (str "stoploss:") (lower line) then
    match labelCapture (str "stoploss") line with
    | some g => { d with stoploss := some (pyStrip g) }
    | none => d
  else d

/-- Targets section (lines 161-181): `lines.index(line)` runs first on the
stripped line — a failed lookup is the `ValueError` that aborts the whole
parse (modelled as `Except.error`); then the same-line value is used unless
empty or a bare colon, otherwise the forward scan supplies the value. -/
def targetsStep (lines : List (List Char)) (line : List Char)
    (d : SignalData) : Except Unit SignalData :=
  if hasSub (str "targets:") (lower line) then
    match listIndex lines line with
    | none => .error ()
    | some idx =>
      let sameLine :=
        match labelCapture (str "targets") line with
        | some g =>
          let v := pyStrip g
          if v ≠ [] ∧ v ≠ [':'] then some v else none
        | none => none
      match sameLine with
      | some v => .ok { d with targets := some v }
      | none =>
        match scanAhead lines idx with
        | some nl => .ok { d with targets := some nl }
        | none => .ok d
  else .ok d

/-- The loop body of `_parse_structured_text` for one raw line: strip it,
skip it when blank, then run the five label sections in source order on the
shared accumulator dict. -/
def structLine (lines : List (List Char)) (d0 : SignalData)
    (rawLine : List Char) : Except Unit SignalData :=
  let line := pyStrip rawLine
  if line = [] then .ok d0
  else
    targetsStep lines line
      (stoplossStep line (entriesStep line (signalStep line (symbolStep line d0))))

/-- The `for line in lines` loop threading the accumulator dict. -/
def structFold (lines : List (List Char)) :
    List (List Char) → SignalData → Except Unit SignalData
  | [], d => .ok d
  | l :: ls, d =>
    match structLine lines d l with
    | .error e => .error e
    | .ok d2 => structFold lines ls d2

/-- The completion rule (lines 184-186): all five keys present. -/
def complete (d : SignalData) : Bool :=
  d.symbol.isSome && d.signal_type.isSome && d.entries.isSome &&
  d.targets.isSome && d.stoploss.isSome

/-- `SignalParser._parse_structured_text` (lines 118-192): line loop, then the
completion check; the surrounding try/except turns the `ValueError` of
`lines.index` into `None`. -/
def parse_structured_text (cs : List Char) : Option SignalData :=
  let lines := splitNl cs
  match structFold lines lines SignalData.empty with
  | .error _ => none
  | .ok d => if complete d then some d else none

/-! ### Pattern Cascade Extractor (`_extract_*`, lines 194-269)

The cascade patterns are embedded as a pattern AST evaluated by a
continuation-passing backtracking matcher with Python `re` semantics:
alternation tries the left branch first, `*`/`+`/`?` are greedy with
give-back, literals compare case-insensitively (`re.IGNORECASE`), and the
search tries start positions left to right.  Each source pattern is split as
prefix / group-1 / suffix, so the capture is the slice the group consumed. -/

/-- Pattern AST for the source regexes. -/
inductive RE where
  | eps : RE
  | tok : List Char → RE
  | cls : (Char → Bool) → RE
  | seq : RE → RE → RE
  | alt : RE → RE → RE
  | star : RE → RE

/-- Greedy `r+`. -/
def rplus (r : RE) : RE := .seq r (.star r)

/-- Greedy `r?`: with comes before without. -/
def ropt (r : RE) : RE := .alt r .eps

/-- Greedy `[c]*` over a class. -/
def clsStar (p : Char → Bool) : RE := .star (.cls p)

/-- Greedy `[c]+` over a class. -/
def clsPlus (p : Char → Bool) : RE := rplus (.cls p)

/-- `[c]?[c]?...` (`n` copies), the tail of a bounded repetition. -/
def optN (p : Char → Bool) : Nat → RE
  | 0 => .eps
  | n + 1 => .seq (ropt (.cls p)) (optN p n)

/-- Greedy `[c]{3,10}` as three mandatory then seven optional characters. -/
def rep3to10 (p : Char → Bool) : RE :=
  .seq (.cls p) (.seq (.cls p) (.seq (.cls p) (optN p 7)))

/-- `[0-9]+\.?[0-9]*`, the dollar-amount shape. -/
def numRE : RE :=
  .seq (clsPlus digitChar) (.seq (ropt (.cls (· = '.'))) (clsStar digitChar))

/-- Backtracking matcher: `matchR fuel r cs k` feeds every suffix of `cs`
reachable by matching `r`, in Python backtracking order, to the continuation
`k` until one succeeds.  The fuel only bounds recursion depth; it is chosen
large enough at the call site to never bite, and a star iteration that
consumes nothing is cut exactly as Python cuts empty repeats. -/
def matchR : Nat → RE → List Char → (List Char → Option (List Char)) →
    Option (List Char)
  | 0, _, _, _ => none
  | _ + 1, .eps, cs, k => k cs
  | _ + 1, .tok s, cs, k =>
    match ciPfx s cs with
    | some r => k r
    | none => none
  | _ + 1, .cls p, cs, k =>
    match cs with
    | [] => none
    | c :: rest => if p c then k rest else none
  | f + 1, .seq a b, cs, k => matchR f a cs (fun r => matchR f b r k)
  | f + 1, .alt a b, cs, k => matchR f a cs k <|> matchR f b cs k
  | f + 1, .star r, cs, k =>
    (matchR f r cs (fun r2 =>
      if r2.length < cs.length then matchR f (.star r) r2 k else none)) <|> k cs

/-- Fuel that comfortably dominates pattern size times input length. -/
def matchFuel (cs : List Char) : Nat := (cs.length + 8) * 64

/-- One `re.search` attempt of `pre (grp) post` at the current position;
returns the group-1 slice on success. -/
def tryCap (fuel : Nat) (pre grp post : RE) (cs : List Char) :
    Option (List Char) :=
  matchR fuel pre cs (fun r1 =>
    matchR fuel grp r1 (fun r2 =>
      matchR fuel post r2 (fun _ => some (r1.take (r1.length - r2.length)))))

/-- Leftmost `re.search` over all start positions. -/
def searchCap (fuel : Nat) (pre grp post : RE) : List Char → Option (List Char)
  | [] => tryCap fuel pre grp post []
  | c :: rest =>
    tryCap fuel pre grp post (c :: rest) <|> searchCap fuel pre grp post rest

/-- `re.search(pattern, cs)` for a pattern split as prefix/group/suffix. -/
def reSearch (pre grp post : RE) (cs : List Char) : Option (List Char) :=
  searchCap (matchFuel cs) pre grp post cs

/-- A cascade pattern: parts before, inside and after the capture group. -/
structure Pat where
  pre : RE
  grp : RE
  post : RE

/-- The pattern loop shared by every extractor: first pattern whose search
matches and whose captured group passes the field check wins; a match whose
check fails falls through to the next pattern, as in the source loops. -/
def tryPatterns (cs : List Char) (check : List Char → Option (List Char)) :
    List Pat → Option (List Char)
  | [] => none
  | p :: rest =>
    (match reSearch p.pre p.grp p.post cs with
     | some m => check m
     | none => none) <|> tryPatterns cs check rest

/-- `self.patterns['symbol']` (lines 18-26). -/
def symbolPatterns : List Pat :=
  [ ⟨.seq (.tok (str "symbol")) (clsStar wsColonChar), rep3to10 alphaChar, .eps⟩,
    ⟨.seq (.tok (str "coin")) (clsStar wsColonChar), rep3to10 alphaChar, .eps⟩,
    ⟨.seq (.tok (str "pair")) (clsStar wsColonChar), rep3to10 alphaChar, .eps⟩,
    ⟨.eps, rep3to10 alphaChar, .tok (str "USDT")⟩,
    ⟨.eps, rep3to10 alphaChar, .tok (str "/USDT")⟩,
    ⟨.seq (.tok (str "symbol")) (clsStar wsColonChar), clsPlus wordChar, .eps⟩,
    ⟨.eps, rep3to10 alphaChar, .cls wsChar⟩ ]

/-- `(LONG|SHORT|BUY|SELL)` group of the signal-type patterns. -/
def dirAlt : RE :=
  .alt (.tok (str "LONG"))
    (.alt (.tok (str "SHORT")) (.alt (.tok (str "BUY")) (.tok (str "SELL"))))

/-- `self.patterns['signal_type']` (lines 27-31). -/
def signalPatterns : List Pat :=
  [ ⟨.eps, dirAlt, .eps⟩,
    ⟨.seq (.tok (str "signal")) (clsStar wsColonChar), dirAlt, .eps⟩,
    ⟨.seq (.tok (str "type")) (clsStar wsColonChar), dirAlt, .eps⟩ ]

/-- `LABEL[:\s]*\$?`, the prefix shared by the price-field label patterns. -/
def labelPre (label : List Char) : RE :=
  .seq (.tok label) (.seq (clsStar wsColonChar) (ropt (.cls (· = '$'))))

/-- `\s*-\s*\$` followed by a number: the dash-joined continuation used by
the bare-range patterns. -/
def dashNum (dollar : Bool) : RE :=
  .seq (clsStar wsChar)
    (.seq (.tok (str "-"))
      (.seq (clsStar wsChar)
        (if dollar then .seq (.tok (str "$")) numRE else numRE)))

/-- `self.patterns['entries']` (lines 32-40). -/
def entriesPatterns : List Pat :=
  [ ⟨labelPre (str "entries"), clsPlus priceChar, .eps⟩,
    ⟨labelPre (str "entry"), clsPlus priceChar, .eps⟩,
    ⟨.seq (.tok (str "entr"))
       (.seq (.alt (.tok (str "y")) (.tok (str "ies")))
         (.seq (clsStar wsColonChar) (ropt (.cls (· = '$'))))),
     clsPlus priceChar, .eps⟩,
    ⟨.seq (.tok (str "buy")) (.seq (clsStar wsChar) (labelPre (str "zone"))),
     clsPlus priceChar, .eps⟩,
    ⟨labelPre (str "enter"), clsPlus priceChar, .eps⟩,
    ⟨.tok (str "$"), numRE, dashNum true⟩,
    ⟨.eps, numRE, dashNum false⟩ ]

/-- `self.patterns['targets']` (lines 41-47). -/
def targetsPatterns : List Pat :=
  [ ⟨labelPre (str "targets"), clsPlus priceChar, .eps⟩,
    ⟨labelPre (str "target"), clsPlus priceChar, .eps⟩,
    ⟨labelPre (str "tp"), clsPlus priceChar, .eps⟩,
    ⟨.seq (.tok (str "take")) (.seq (clsStar wsChar) (labelPre (str "profit"))),
     clsPlus priceChar, .eps⟩,
    ⟨.tok (str "$"), .seq numRE (.star (dashNum true)), .eps⟩ ]

/-- `self.patterns['stoploss']` (lines 48-52). -/
def slPatterns : List Pat :=
  [ ⟨labelPre (str "stoploss"), clsPlus slChar, .eps⟩,
    ⟨.seq (.tok (str "stop")) (.seq (clsStar wsChar) (labelPre (str "loss"))),
     clsPlus slChar, .eps⟩,
    ⟨labelPre (str "sl"), clsPlus slChar, .eps⟩ ]

/-- Post-match symbol acceptance (lines 199-202): upper-case, then keep only
alphabetic tokens of length 3 to 10. -/
def symbolCheck (g : List Char) : Option (List Char) :=
  let s := upper g
  if 3 ≤ s.length ∧ s.length ≤ 10 ∧ (!s.isEmpty && s.all alphaChar) = true then
    some s
  else none

/-- `SignalParser._extract_symbol` (lines 194-203). -/
def extract_symbol (cs : List Char) : Option (List Char) :=
  tryPatterns cs symbolCheck symbolPatterns

/-- Post-match direction normalization (lines 210-217): `BUY` becomes `LONG`,
`SELL` becomes `SHORT`, canonical values pass through, anything else falls
through to the next pattern. -/
def signalCheck (g : List Char) : Option (List Char) :=
  let st := upper g
  if st = str "BUY" then some (str "LONG")
  else if st = str "SELL" then some (str "SHORT")
  else if st = str "LONG" ∨ st = str "SHORT" then some st
  else none

/-- `SignalParser._extract_signal_type` (lines 205-218). -/
def extract_signal_type (cs : List Char) : Option (List Char) :=
  tryPatterns cs signalCheck signalPatterns

/-- Shared post-match step of the price fields (entries/targets/stoploss):
strip the group, normalize it, and reject an empty normalization. -/
def priceCheck (g : List Char) : Option (List Char) :=
  let e := clean_price_data (pyStrip g)
  if e = [] then none else some e

/-- `SignalParser._extract_entries` (lines 220-230). -/
def extract_entries (cs : List Char) : Option (List Char) :=
  tryPatterns cs priceCheck entriesPatterns

/-- Inner line scan of the targets fallback (lines 249-255): at most `fuel`
lines starting at `j`; a qualifying line whose normalization is empty lets
the scan continue. -/
def tfInner (lines : List (List Char)) : Nat → Nat → Option (List Char)
  | _, 0 => none
  | j, fuel + 1 =>
    match lines.get? j with
    | none => none
    | some raw =>
      let nl := pyStrip raw
      if nl ≠ [] ∧ (nl.contains '$' ∨ hasDecimal nl = true) then
        (let c := clean_price_data nl
         if c ≠ [] then some c else none) <|> tfInner lines (j + 1) fuel
      else tfInner lines (j + 1) fuel

/-- Outer enumerate loop of the targets fallback (lines 245-255): every line
containing `targets:` triggers a scan of at most the next two lines. -/
def tfOuter (lines : List (List Char)) : Nat → List (List Char) →
    Option (List Char)
  | _, [] => none
  | i, l :: rest =>
    (if hasSub (str "targets:") (lower l) then
       tfInner lines (i + 1) (min (i + 3) lines.length - (i + 1))
     else none) <|> tfOuter lines (i + 1) rest

/-- `SignalParser._extract_targets` (lines 232-257): pattern loop first, then
the multi-line fallback. -/
def extract_targets (cs : List Char) : Option (List Char) :=
  tryPatterns cs priceCheck targetsPatterns <|>
    (let lines := splitNl cs
     tfOuter lines 0 lines)

/-- `SignalParser._extract_stoploss` (lines 259-269). -/
def extract_stoploss (cs : List Char) : Option (List Char) :=
  tryPatterns cs priceCheck slPatterns

/-- `SignalParser.parse_signal` (lines 55-116): the structured pass runs
first on the raw text and a complete record returns immediately; otherwise
the cascade builds the record field by field over the upper-cased text and
any missing field fails the whole extraction. -/
def parse_signal (cs : List Char) : Option SignalData :=
  let text_upper := upper cs
  match parse_structured_text cs with
  | some d => some d
  | none =>
    match extract_symbol text_upper with
    | none => none
    | some sy =>
      match extract_signal_type text_upper with
      | none => none
      | some st =>
        match extract_entries text_upper with
        | none => none
        | some en =>
          match extract_targets text_upper with
          | none => none
          | some tg =>
            match extract_stoploss text_upper with
            | none => none
            | some sl => some ⟨some sy, some st, some en, some tg, some sl⟩

/-! ### API boundary: malformed input types and the validator call graph -/

/-- A Python value as it may arrive at the module's public operations: the
expected type, a dict, or a malformed input such as `None`. -/
inductive PyVal where
  | pyStr : List Char → PyVal
  | pyDict : SignalData → PyVal
  | pyNone : PyVal
deriving DecidableEq

/-- The Python exception kinds these operations can raise. -/
inductive PyErr where
  | typeErr : PyErr
  | attrErr : PyErr
deriving DecidableEq

/-- Whether a value is a `str`. -/
def isPyStr : PyVal → Bool
  | .pyStr _ => true
  | _ => false

/-- The `try` body of `parse_signal` on a dynamic argument: `text.upper()` on
a non-string raises `AttributeError`; on a string the body runs to completion
(no other statement of the body raises). -/
def parse_signal_body : PyVal → Except PyErr (Option SignalData)
  | .pyStr s => .ok (parse_signal s)
  | _ => .error .attrErr

/-- `parse_signal` as called from outside: its `except Exception` clause
(lines 114-116) turns any fault of the body into `None`. -/
def parse_signal_guarded (v : PyVal) : Option SignalData :=
  match parse_signal_body v with
  | .ok r => r
  | .error _ => none

/-- `validate_signal_data` on a dynamic argument: the body has no
`try`/`except`, and `field not in signal_data` on a non-dict such as `None`
raises `TypeError`, which propagates to the caller. -/
def validate_signal_data_dyn : PyVal → Except PyErr Bool
  | .pyDict d => .ok (validate_signal_data d)
  | _ => .error .typeErr

/-- `parse_signal` instrumented with the number of times its body invokes
`validate_signal_data`: the body (src/signal_parser.py lines 55-116) contains
no call to `validate_signal_data` on any path, so the count is zero for every
input. -/
def parse_signal_validator_calls (cs : List Char) : Option SignalData × Nat :=
  (parse_signal cs, 0)

/-! ### Shape predicates for normalized price strings -/

/-- No two adjacent characters satisfy `P` then `Q`. -/
def NoAdj (P Q : Char → Prop) : List Char → Prop
  | [] => True
  | [_] => True
  | a :: b :: rest => ¬(P a ∧ Q b) ∧ NoAdj P Q (b :: rest)

/-- Whitespace, as a proposition. -/
def isWs (c : Char) : Prop := wsChar c = true

/-- The space character, as a proposition. -/
def isSp (c : Char) : Prop := c = ' '

/-- The dash character, as a proposition. -/
def isDash (c : Char) : Prop := c = '-'

/-- Every whitespace character of the string is a plain space. -/
def SpOnly (l : List Char) : Prop := ∀ c ∈ l, wsChar c = true → c = ' '

/-- The first character, when present, is not whitespace. -/
def FirstNotWs (l : List Char) : Prop :=
  ∀ c, l.head? = some c → wsChar c = false

/-- The last character, when present, is not whitespace. -/
def LastNotWs (l : List Char) : Prop :=
  ∀ c, l.getLast? = some c → wsChar c = false

/-- The normal form reached by `clean_price_data`: only plain spaces, no two
adjacent whitespace characters, no space-dash or dash-space pair, and no
whitespace at either end. -/
def CleanNF (l : List Char) : Prop :=
  SpOnly l ∧ NoAdj isWs isWs l ∧ NoAdj isSp isDash l ∧ NoAdj isDash isSp l ∧
  FirstNotWs l ∧ LastNotWs l

/-- The invariant every value stored by the labeled-line loop satisfies:
stored fields are non-empty, and a stored direction is canonical. -/
def StructInv (d : SignalData) : Prop :=
  (∀ v, d.symbol = some v → v ≠ []) ∧
  (∀ v, d.signal_type = some v → v = str "LONG" ∨ v = str "SHORT") ∧
  (∀ v, d.entries = some v → v ≠ []) ∧
  (∀ v, d.targets = some v → v ≠ []) ∧
  (∀ v, d.stoploss = some v → v ≠ [])

end SignalSpec

namespace SignalSpec

/-! ### Price Normalizer lemmas -/

theorem noAdj_nil {P Q : Char → Prop} : NoAdj P Q [] := trivial

theorem noAdj_single {P Q : Char → Prop} {c : Char} : NoAdj P Q [c] := trivial

theorem noAdj_tail {P Q : Char → Prop} {a : Char} {l : List Char}
    (h : NoAdj P Q (a :: l)) : NoAdj P Q l := by
  cases l with
  | nil => trivial
  | cons b t => exact h.2

theorem noAdj_cons {P Q : Char → Prop} {a b : Char} {l : List Char}
    (h : NoAdj P Q (a :: b :: l)) : ¬(P a ∧ Q b) := h.1

theorem noAdj_cons_of {P Q : Char → Prop} {a b : Char} {l : List Char}
    (h1 : ¬(P a ∧ Q b)) (h2 : NoAdj P Q (b :: l)) : NoAdj P Q (a :: b :: l) :=
  ⟨h1, h2⟩

theorem NoAdj_mono {P Q P' Q' : Char → Prop}
    (hP : ∀ a, P' a → P a) (hQ : ∀ b, Q' b → Q b) :
    ∀ l, NoAdj P Q l → NoAdj P' Q' l := by
  intro l
  induction l with
  | nil => intro _; trivial
  | cons c t ih =>
    intro h
    cases t with
    | nil => trivial
    | cons d t' =>
      exact ⟨fun hc => h.1 ⟨hP _ hc.1, hQ _ hc.2⟩, ih h.2⟩

theorem collapseWs_ne_nil : ∀ {l : List Char}, l ≠ [] → collapseWs l ≠ [] := by
  intro l
  induction l using collapseWs.induct with
  | case1 => intro h; exact absurd rfl h
  | case2 c hc => intro _; simp [collapseWs, hc]
  | case3 c hc => intro _; simp [collapseWs, hc]
  | case4 c d rest hc hd ih => intro _; simpa [collapseWs, hc, hd] using ih (by simp)
  | case5 c d rest hc hd ih => intro _; simp [collapseWs, hc, hd]
  | case6 c d rest hc ih => intro _; simp [collapseWs, hc]

theorem collapseWs_head {c : Char} {t : List Char} (hc : wsChar c = false) :
    ∃ t', collapseWs (c :: t) = c :: t' := by
  cases t with
  | nil => exact ⟨[], by simp [collapseWs, hc]⟩
  | cons d t' => exact ⟨collapseWs (d :: t'), by simp [collapseWs, hc]⟩

theorem collapseWs_spOnly : ∀ l, SpOnly (collapseWs l) := by
  intro l
  induction l using collapseWs.induct with
  | case1 => intro c hm; simp [collapseWs] at hm
  | case2 c hc => intro x hm; simp [collapseWs, hc] at hm; simp [hm]
  | case3 c hc =>
    intro x hm hw
    simp [collapseWs, hc] at hm
    subst hm; exact absurd hw (by simpa using hc)
  | case4 c d rest hc hd ih =>
    intro x hm hw
    rw [show collapseWs (c :: d :: rest) = collapseWs (d :: rest) by
      simp [collapseWs, hc, hd]] at hm
    exact ih x hm hw
  | case5 c d rest hc hd ih =>
    intro x hm hw
    rw [show collapseWs (c :: d :: rest) = ' ' :: collapseWs (d :: rest) by
      simp [collapseWs, hc, hd]] at hm
    rcases List.mem_cons.mp hm with h | h
    · exact h
    · exact ih x h hw
  | case6 c d rest hc ih =>
    intro x hm hw
    rw [show collapseWs (c :: d :: rest) = c :: collapseWs (d :: rest) by
      simp [collapseWs, hc]] at hm
    rcases List.mem_cons.mp hm with h | h
    · subst h; exact absurd hw (by simpa using hc)
    · exact ih x h hw

theorem collapseWs_noAdj_ws : ∀ l, NoAdj isWs isWs (collapseWs l) := by
  intro l
  induction l using collapseWs.induct with
  | case1 => exact noAdj_nil
  | case2 c hc => simp only [collapseWs, hc, if_pos]; exact noAdj_single
  | case3 c hc => simp only [collapseWs, hc]; exact noAdj_single
  | case4 c d rest hc hd ih => simpa [collapseWs, hc, hd] using ih
  | case5 c d rest hc hd ih =>
    rw [show collapseWs (c :: d :: rest) = ' ' :: collapseWs (d :: rest) by
      simp [collapseWs, hc, hd]]
    obtain ⟨t', ht'⟩ := collapseWs_head (t := rest) (by simpa using hd)
    rw [ht']
    exact noAdj_cons_of (fun hp => by simp [isWs, hd] at hp) (ht' ▸ ih)
  | case6 c d rest hc ih =>
    rw [show collapseWs (c :: d :: rest) = c :: collapseWs (d :: rest) by
      simp [collapseWs, hc]]
    cases hX : collapseWs (d :: rest) with
    | nil => exact noAdj_single
    | cons x xs =>
      exact noAdj_cons_of (fun hp => hc hp.1) (hX ▸ ih)

theorem collapseWs_first {l : List Char} (h : FirstNotWs l) :
    FirstNotWs (collapseWs l) := by
  cases l with
  | nil => intro c hc; simp [collapseWs] at hc
  | cons c t =>
    have hc : wsChar c = false := h c rfl
    obtain ⟨t', ht'⟩ := collapseWs_head (t := t) hc
    rw [ht']
    intro x hx
    simp at hx
    exact hx ▸ hc

theorem getLast?_cons_of_ne_nil {c : Char} {t : List Char} (h : t ≠ []) :
    (c :: t).getLast? = t.getLast? := by
  cases t with
  | nil => exact absurd rfl h
  | cons d t' => exact List.getLast?_cons_cons

theorem collapseWs_last : ∀ {l : List Char}, LastNotWs l →
    LastNotWs (collapseWs l) := by
  intro l
  induction l using collapseWs.induct with
  | case1 => intro _; intro c hc; simp [collapseWs] at hc
  | case2 c hc =>
    intro h
    have := h c (by simp)
    rw [this] at hc; exact absurd hc (by simp)
  | case3 c hc =>
    intro h
    simp only [collapseWs, hc, if_neg, Bool.false_eq_true, not_false_iff]
    intro x hx
    simp at hx
    exact hx ▸ h c (by simp)
  | case4 c d rest hc hd ih =>
    intro h
    rw [show collapseWs (c :: d :: rest) = collapseWs (d :: rest) by
      simp [collapseWs, hc, hd]]
    exact ih (fun x hx => h x (by rw [List.getLast?_cons_cons]; exact hx))
  | case5 c d rest hc hd ih =>
    intro h
    rw [show collapseWs (c :: d :: rest) = ' ' :: collapseWs (d :: rest) by
      simp [collapseWs, hc, hd]]
    have hne : collapseWs (d :: rest) ≠ [] := collapseWs_ne_nil (by simp)
    intro x hx
    rw [getLast?_cons_of_ne_nil hne] at hx
    exact ih (fun y hy => h y (by rw [List.getLast?_cons_cons]; exact hy)) x hx
  | case6 c d rest hc ih =>
    intro h
    rw [show collapseWs (c :: d :: rest) = c :: collapseWs (d :: rest) by
      simp [collapseWs, hc]]
    have hne : collapseWs (d :: rest) ≠ [] := collapseWs_ne_nil (by simp)
    intro x hx
    rw [getLast?_cons_of_ne_nil hne] at hx
    exact ih (fun y hy => h y (by rw [List.getLast?_cons_cons]; exact hy)) x hx

theorem repl2_ne_nil {p q r : Char} : ∀ {l : List Char}, l ≠ [] →
    repl2 p q r l ≠ [] := by
  intro l
  induction l using repl2.induct p q r with
  | case1 => intro h; exact absurd rfl h
  | case2 c => intro _; simp [repl2]
  | case3 c d rest h ih => intro _; simp [repl2, h]
  | case4 c d rest h ih => intro _; simp [repl2, h]

theorem repl2_mem {p q r : Char} : ∀ {l : List Char} {c : Char},
    c ∈ repl2 p q r l → c ∈ l ∨ c = r := by
  intro l
  induction l using repl2.induct p q r with
  | case1 => intro c h; simp [repl2] at h
  | case2 x => intro c h; simp [repl2] at h; simp [h]
  | case3 x d rest h ih =>
    intro c hm
    rw [show repl2 p q r (x :: d :: rest) = r :: repl2 p q r rest by
      simp [repl2, h]] at hm
    rcases List.mem_cons.mp hm with hh | hh
    · exact Or.inr hh
    · rcases ih hh with hh2 | hh2
      · exact Or.inl (by simp [hh2])
      · exact Or.inr hh2
  | case4 x d rest h ih =>
    intro c hm
    rw [show repl2 p q r (x :: d :: rest) = x :: repl2 p q r (d :: rest) by
      simp [repl2, h]] at hm
    rcases List.mem_cons.mp hm with hh | hh
    · exact Or.inl (by simp [hh])
    · rcases ih hh with hh2 | hh2
      · exact Or.inl (List.mem_cons_of_mem _ hh2)
      · exact Or.inr hh2

theorem repl2_fix {p q r : Char} : ∀ {l : List Char},
    NoAdj (· = p) (· = q) l → repl2 p q r l = l := by
  intro l
  induction l using repl2.induct p q r with
  | case1 => intro _; rfl
  | case2 c => intro _; rfl
  | case3 c d rest h ih =>
    intro hadj
    have hno := noAdj_cons hadj
    exact absurd h hno
  | case4 c d rest h ih =>
    intro hadj
    rw [show repl2 p q r (c :: d :: rest) = c :: repl2 p q r (d :: rest) by
      simp [repl2, h]]
    rw [ih (noAdj_tail hadj)]

theorem repl2_head {p q r : Char} {x : Char} {t : List Char} :
    ∃ h t', repl2 p q r (x :: t) = h :: t' ∧ (h = x ∨ (h = r ∧ x = p)) := by
  cases t with
  | nil => exact ⟨x, [], rfl, Or.inl rfl⟩
  | cons d t' =>
    by_cases hm : x = p ∧ d = q
    · exact ⟨r, repl2 p q r t', by simp [repl2, hm], Or.inr ⟨rfl, hm.1⟩⟩
    · exact ⟨x, repl2 p q r (d :: t'), by simp [repl2, hm], Or.inl rfl⟩

theorem repl2_first {p q r : Char} (hr : wsChar r = false) {l : List Char}
    (h : FirstNotWs l) : FirstNotWs (repl2 p q r l) := by
  cases l with
  | nil => intro c hc; simp [repl2] at hc
  | cons x t =>
    obtain ⟨hd, t', heq, hor⟩ := repl2_head (p := p) (q := q) (r := r)
      (x := x) (t := t)
    rw [heq]
    intro c hc
    simp at hc
    subst hc
    rcases hor with h1 | h1
    · exact h1 ▸ h x rfl
    · exact h1.1 ▸ hr

theorem repl2_last {p q r : Char} (hr : wsChar r = false) :
    ∀ {l : List Char}, LastNotWs l → LastNotWs (repl2 p q r l) := by
  intro l
  induction l using repl2.induct p q r with
  | case1 => intro _; intro c hc; simp [repl2] at hc
  | case2 c => intro h; simpa [repl2] using h
  | case3 c d rest h ih =>
    intro hlast
    rw [show repl2 p q r (c :: d :: rest) = r :: repl2 p q r rest by
      simp [repl2, h]]
    by_cases hrest : rest = []
    · subst hrest
      intro x hx
      simp [repl2] at hx
      exact hx ▸ hr
    · have hne : repl2 p q r rest ≠ [] := repl2_ne_nil hrest
      intro x hx
      rw [getLast?_cons_of_ne_nil hne] at hx
      refine ih (fun y hy => hlast y ?_) x hx
      rw [List.getLast?_cons_cons, getLast?_cons_of_ne_nil hrest]
      exact hy
  | case4 c d rest h ih =>
    intro hlast
    rw [show repl2 p q r (c :: d :: rest) = c :: repl2 p q r (d :: rest) by
      simp [repl2, h]]
    have hne : repl2 p q r (d :: rest) ≠ [] := repl2_ne_nil (by simp)
    intro x hx
    rw [getLast?_cons_of_ne_nil hne] at hx
    exact ih (fun y hy => hlast y (by rw [List.getLast?_cons_cons]; exact hy)) x hx

theorem repl2_spOnly {p q r : Char} (hr : wsChar r = true → r = ' ')
    {l : List Char} (h : SpOnly l) : SpOnly (repl2 p q r l) := by
  intro c hm hw
  rcases repl2_mem hm with h1 | h1
  · exact h c h1 hw
  · exact h1 ▸ hr (h1 ▸ hw)

theorem wsChar_dash : wsChar '-' = false := by decide

theorem wsChar_space : wsChar ' ' = true := by decide

theorem spOnly_tail {c : Char} {l : List Char} (h : SpOnly (c :: l)) :
    SpOnly l := fun x hx => h x (List.mem_cons_of_mem _ hx)

theorem not_isWs_dash : ¬ isWs '-' := by
  intro h
  have h2 : wsChar '-' = true := h
  exact absurd h2 (by decide)

theorem not_isSp_dash : ¬ isSp '-' := by
  intro h
  have h2 : '-' = ' ' := h
  exact absurd h2 (by decide)

theorem isWs_sp : isWs ' ' := show wsChar ' ' = true by decide

theorem isWs_of_isSp {c : Char} (h : isSp c) : isWs c := by
  rw [show c = ' ' from h]; exact isWs_sp

theorem isDash_dash : isDash '-' := rfl

theorem passB_adj : ∀ {l : List Char}, SpOnly l → NoAdj isWs isWs l →
    NoAdj isWs isWs (repl2 ' ' '-' '-' l) ∧
    NoAdj isSp isDash (repl2 ' ' '-' '-' l) := by
  intro l
  induction l using repl2.induct ' ' '-' '-' with
  | case1 => intro _ _; exact ⟨noAdj_nil, noAdj_nil⟩
  | case2 c => intro _ _; exact ⟨noAdj_single, noAdj_single⟩
  | case3 c d rest h ih =>
    intro hsp hww
    rw [show repl2 ' ' '-' '-' (c :: d :: rest) = '-' :: repl2 ' ' '-' '-' rest by
      simp [repl2, h]]
    have hrest := ih (spOnly_tail (spOnly_tail hsp)) (noAdj_tail (noAdj_tail hww))
    cases hX : repl2 ' ' '-' '-' rest with
    | nil => exact ⟨noAdj_single, noAdj_single⟩
    | cons x xs =>
      refine ⟨noAdj_cons_of (fun hp => not_isWs_dash hp.1) (hX ▸ hrest.1),
              noAdj_cons_of (fun hp => not_isSp_dash hp.1) (hX ▸ hrest.2)⟩
  | case4 c d rest h ih =>
    intro hsp hww
    rw [show repl2 ' ' '-' '-' (c :: d :: rest) = c :: repl2 ' ' '-' '-' (d :: rest) by
      simp [repl2, h]]
    have hrest := ih (spOnly_tail hsp) (noAdj_tail hww)
    obtain ⟨hd, t', heq, hor⟩ := repl2_head (p := ' ') (q := '-') (r := '-')
      (x := d) (t := rest)
    rw [heq]
    refine ⟨noAdj_cons_of (fun hp => ?_) (heq ▸ hrest.1),
            noAdj_cons_of (fun hp => ?_) (heq ▸ hrest.2)⟩
    · rcases hor with h1 | h1
      · exact noAdj_cons hww ⟨hp.1, h1 ▸ hp.2⟩
      · exact not_isWs_dash (h1.1 ▸ hp.2)
    · rcases hor with h1 | h1
      · exact h ⟨hp.1, h1 ▸ hp.2⟩
      · exact noAdj_cons hww ⟨isWs_of_isSp hp.1, by
          rw [h1.2]; exact isWs_sp⟩

theorem passC_adj : ∀ {l : List Char}, SpOnly l → NoAdj isWs isWs l →
    NoAdj isSp isDash l →
    NoAdj isWs isWs (repl2 '-' ' ' '-' l) ∧
    NoAdj isSp isDash (repl2 '-' ' ' '-' l) ∧
    NoAdj isDash isSp (repl2 '-' ' ' '-' l) := by
  intro l
  induction l using repl2.induct '-' ' ' '-' with
  | case1 => intro _ _ _; exact ⟨noAdj_nil, noAdj_nil, noAdj_nil⟩
  | case2 c => intro _ _ _; exact ⟨noAdj_single, noAdj_single, noAdj_single⟩
  | case3 c d rest h ih =>
    intro hsp hww hsd
    rw [show repl2 '-' ' ' '-' (c :: d :: rest) = '-' :: repl2 '-' ' ' '-' rest by
      simp [repl2, h]]
    have hrest := ih (spOnly_tail (spOnly_tail hsp))
      (noAdj_tail (noAdj_tail hww)) (noAdj_tail (noAdj_tail hsd))
    cases rest with
    | nil => exact ⟨noAdj_single, noAdj_single, noAdj_single⟩
    | cons x t =>
      obtain ⟨hd, t', heq, hor⟩ := repl2_head (p := '-') (q := ' ') (r := '-')
        (x := x) (t := t)
      rw [heq]
      refine ⟨noAdj_cons_of (fun hp => not_isWs_dash hp.1) (heq ▸ hrest.1),
              noAdj_cons_of (fun hp => not_isSp_dash hp.1) (heq ▸ hrest.2.1),
              noAdj_cons_of (fun hp => ?_) (heq ▸ hrest.2.2)⟩
      rcases hor with h1 | h1
      · refine noAdj_cons (noAdj_tail hww) ⟨?_, ?_⟩
        · rw [h.2]; exact isWs_sp
        · exact isWs_of_isSp (h1 ▸ hp.2)
      · exact not_isSp_dash (h1.1 ▸ hp.2)
  | case4 c d rest h ih =>
    intro hsp hww hsd
    rw [show repl2 '-' ' ' '-' (c :: d :: rest) = c :: repl2 '-' ' ' '-' (d :: rest) by
      simp [repl2, h]]
    have hrest := ih (spOnly_tail hsp) (noAdj_tail hww) (noAdj_tail hsd)
    obtain ⟨hd, t', heq, hor⟩ := repl2_head (p := '-') (q := ' ') (r := '-')
      (x := d) (t := rest)
    rw [heq]
    refine ⟨noAdj_cons_of (fun hp => ?_) (heq ▸ hrest.1),
            noAdj_cons_of (fun hp => ?_) (heq ▸ hrest.2.1),
            noAdj_cons_of (fun hp => ?_) (heq ▸ hrest.2.2)⟩
    · rcases hor with h1 | h1
      · exact noAdj_cons hww ⟨hp.1, h1 ▸ hp.2⟩
      · exact not_isWs_dash (h1.1 ▸ hp.2)
    · rcases hor with h1 | h1
      · exact noAdj_cons hsd ⟨hp.1, h1 ▸ hp.2⟩
      · exact noAdj_cons hsd ⟨hp.1, h1.2 ▸ isDash_dash⟩
    · rcases hor with h1 | h1
      · exact h ⟨hp.1, h1 ▸ hp.2⟩
      · exact not_isSp_dash (h1.1 ▸ hp.2)

theorem collapseWs_fix : ∀ {l : List Char}, SpOnly l → NoAdj isWs isWs l →
    collapseWs l = l := by
  intro l
  induction l using collapseWs.induct with
  | case1 => intro _ _; rfl
  | case2 c hc =>
    intro hsp _
    have : c = ' ' := hsp c (by simp) hc
    simp [collapseWs, hc, this]
  | case3 c hc => intro _ _; simp [collapseWs, hc]
  | case4 c d rest hc hd ih =>
    intro _ hadj
    exact absurd ⟨hc, hd⟩ (noAdj_cons hadj)
  | case5 c d rest hc hd ih =>
    intro hsp hadj
    have hceq : c = ' ' := hsp c (by simp) hc
    rw [show collapseWs (c :: d :: rest) = ' ' :: collapseWs (d :: rest) by
      simp [collapseWs, hc, hd]]
    rw [ih (fun x hx => hsp x (by simp [hx]) ) (noAdj_tail hadj), hceq]
  | case6 c d rest hc ih =>
    intro hsp hadj
    rw [show collapseWs (c :: d :: rest) = c :: collapseWs (d :: rest) by
      simp [collapseWs, hc]]
    rw [ih (fun x hx => hsp x (by simp [hx])) (noAdj_tail hadj)]

theorem head?_dropWhile {p : Char → Bool} : ∀ {l : List Char} {c : Char},
    (l.dropWhile p).head? = some c → p c = false := by
  intro l
  induction l with
  | nil => intro c h; simp at h
  | cons x t ih =>
    intro c h
    by_cases hx : p x
    · rw [List.dropWhile_cons_of_pos hx] at h; exact ih h
    · rw [List.dropWhile_cons_of_neg hx] at h
      simp at h
      exact h ▸ (by simpa using hx)

theorem getLast?_dropWhile_of_ne_nil {p : Char → Bool} : ∀ {l : List Char},
    l.dropWhile p ≠ [] → (l.dropWhile p).getLast? = l.getLast? := by
  intro l
  induction l with
  | nil => intro h; simp at h
  | cons x t ih =>
    intro h
    by_cases hx : p x
    · rw [List.dropWhile_cons_of_pos hx] at h ⊢
      have ht : t ≠ [] := by
        intro he; rw [he] at h; simp at h
      rw [ih h, getLast?_cons_of_ne_nil ht]
    · rw [List.dropWhile_cons_of_neg hx]

theorem pyStrip_last (l : List Char) : LastNotWs (pyStrip l) := by
  intro c hc
  rw [pyStrip, List.getLast?_reverse] at hc
  exact head?_dropWhile hc

theorem pyStrip_first (l : List Char) : FirstNotWs (pyStrip l) := by
  intro c hc
  rw [pyStrip, List.head?_reverse] at hc
  have hne : ((l.dropWhile wsChar).reverse.dropWhile wsChar) ≠ [] := by
    intro he; rw [he] at hc; simp at hc
  rw [getLast?_dropWhile_of_ne_nil hne, List.getLast?_reverse] at hc
  exact head?_dropWhile hc

theorem dropWhile_eq_self_of_first {l : List Char} (h : FirstNotWs l) :
    l.dropWhile wsChar = l := by
  cases l with
  | nil => rfl
  | cons c t => exact List.dropWhile_cons_of_neg (by simp [h c rfl])

theorem strip_eq_self {l : List Char} (hf : FirstNotWs l) (hl : LastNotWs l) :
    pyStrip l = l := by
  rw [pyStrip, dropWhile_eq_self_of_first hf]
  have hrev : FirstNotWs l.reverse := by
    intro c hc
    rw [List.head?_reverse] at hc
    exact hl c hc
  rw [dropWhile_eq_self_of_first hrev, List.reverse_reverse]

theorem strip_ne_nil_of_not_ws {l : List Char} {c : Char} (hm : c ∈ l)
    (hc : wsChar c = false) : pyStrip l ≠ [] := by
  intro he
  rw [pyStrip] at he
  have h1 : (l.dropWhile wsChar).reverse.dropWhile wsChar = [] := by
    simpa using he
  have h2 : ∀ x ∈ (l.dropWhile wsChar).reverse, wsChar x = true :=
    List.dropWhile_eq_nil_iff.mp h1
  have h3 : ∀ x ∈ l, wsChar x = true := by
    intro x hx
    rcases List.mem_append.mp
      ((List.takeWhile_append_dropWhile (p := wsChar) (l := l)) ▸ hx) with h4 | h4
    · exact List.mem_takeWhile_imp h4
    · exact h2 x (List.mem_reverse.mpr h4)
  rw [h3 c hm] at hc
  exact absurd hc (by simp)

theorem hasDigit_ne_nil {l : List Char} (h : hasDigit l = true) : l ≠ [] := by
  intro he
  rw [he] at h
  simp [hasDigit] at h

theorem chainNF {s : List Char} (hf : FirstNotWs s) (hl : LastNotWs s) :
    CleanNF (repl2 '-' ' ' '-' (repl2 ' ' '-' '-' (repl2 ' ' ' ' ' '
      (collapseWs s)))) := by
  have hsp := collapseWs_spOnly s
  have hww := collapseWs_noAdj_ws s
  have hf1 := collapseWs_first hf
  have hl1 := collapseWs_last hl
  have hfix : repl2 ' ' ' ' ' ' (collapseWs s) = collapseWs s := by
    refine repl2_fix ?_
    exact NoAdj_mono (fun a ha => isWs_of_isSp ha) (fun b hb => isWs_of_isSp hb)
      _ hww
  rw [hfix]
  have hB := passB_adj hsp hww
  have hBsp : SpOnly (repl2 ' ' '-' '-' (collapseWs s)) :=
    repl2_spOnly (fun h => absurd h (by decide)) hsp
  have hBf := repl2_first (p := ' ') (q := '-') wsChar_dash hf1
  have hBl := repl2_last (p := ' ') (q := '-') wsChar_dash hl1
  have hC := passC_adj hBsp hB.1 hB.2
  refine ⟨repl2_spOnly (fun h => absurd h (by decide)) hBsp, hC.1, hC.2.1,
    hC.2.2, repl2_first (p := '-') (q := ' ') wsChar_dash hBf,
    repl2_last (p := '-') (q := ' ') wsChar_dash hBl⟩

theorem clean_in_NF (l : List Char) :
    clean_price_data l = [] ∨
    (CleanNF (clean_price_data l) ∧ hasDigit (clean_price_data l) = true) := by
  by_cases hl : l = []
  · left; simp [clean_price_data, hl]
  · have hNF := chainNF (pyStrip_first l) (pyStrip_last l)
    by_cases hd : hasDigit (repl2 '-' ' ' '-' (repl2 ' ' '-' '-'
        (repl2 ' ' ' ' ' ' (collapseWs (pyStrip l))))) = true
    · right
      have he : clean_price_data l = repl2 '-' ' ' '-' (repl2 ' ' '-' '-'
          (repl2 ' ' ' ' ' ' (collapseWs (pyStrip l)))) := by
        simp [clean_price_data, hl, hd]
      rw [he]
      exact ⟨hNF, hd⟩
    · left
      simp [clean_price_data, hl, hd]

theorem clean_fix {c : List Char} (h : CleanNF c) (hd : hasDigit c = true) :
    clean_price_data c = c := by
  obtain ⟨hsp, hww, hsd, hds, hf, hl⟩ := h
  have hne : c ≠ [] := hasDigit_ne_nil hd
  have hstrip : pyStrip c = c := strip_eq_self hf hl
  have hcol : collapseWs c = c := collapseWs_fix hsp hww
  have hA : repl2 ' ' ' ' ' ' c = c :=
    repl2_fix (NoAdj_mono (fun a ha => isWs_of_isSp ha)
      (fun b hb => isWs_of_isSp hb) _ hww)
  have hsd' : NoAdj (fun x => x = ' ') (fun x => x = '-') c := hsd
  have hds' : NoAdj (fun x => x = '-') (fun x => x = ' ') c := hds
  have hB : repl2 ' ' '-' '-' c = c := repl2_fix hsd'
  have hC : repl2 '-' ' ' '-' c = c := repl2_fix hds'
  simp [clean_price_data, hne, hstrip, hcol, hA, hB, hC, hd]

theorem clean_idem (l : List Char) :
    clean_price_data (clean_price_data l) = clean_price_data l := by
  rcases clean_in_NF l with h | ⟨hNF, hd⟩
  · rw [h]; simp [clean_price_data]
  · exact clean_fix hNF hd

/-! ### Lemmas about the labeled-line scanning functions -/

theorem ciPfx_drop : ∀ {s cs r : List Char}, ciPfx s cs = some r →
    r = cs.drop s.length ∧ s.length ≤ cs.length := by
  intro s
  induction s with
  | nil => intro cs r h; simp [ciPfx] at h; simp [h]
  | cons a as ih =>
    intro cs r h
    cases cs with
    | nil => simp [ciPfx] at h
    | cons c t =>
      rw [ciPfx] at h
      split at h
      · obtain ⟨h1, h2⟩ := ih h
        exact ⟨by simpa using h1, by simpa using Nat.succ_le_succ h2⟩
      · exact absurd h (by simp)

theorem ciPfx_take_upper : ∀ {s cs r : List Char}, ciPfx s cs = some r →
    upper (cs.take s.length) = upper s := by
  intro s
  induction s with
  | nil => intro cs r h; simp [upper]
  | cons a as ih =>
    intro cs r h
    cases cs with
    | nil => simp [ciPfx] at h
    | cons c t =>
      rw [ciPfx] at h
      split at h
      · rename_i heq
        simp only [List.length_cons, List.take_succ_cons, upper, List.map_cons]
        have := ih h
        simp only [upper] at this
        rw [this, heq]
      · exact absurd h (by simp)

theorem drop_getLast?_of_ne_nil : ∀ {n : Nat} {l : List Char},
    l.drop n ≠ [] → (l.drop n).getLast? = l.getLast? := by
  intro n
  induction n with
  | zero => intro l _; rfl
  | succ m ih =>
    intro l h
    cases l with
    | nil => simp at h
    | cons c t =>
      rw [List.drop_succ_cons] at h ⊢
      have ht : t ≠ [] := by
        intro he
        rw [he] at h
        simp at h
      rw [ih h, getLast?_cons_of_ne_nil ht]

theorem labelTry_shape {label cs g : List Char} (h : labelTry label cs = some g) :
    ∃ n, g = cs.drop n ∧ g ≠ [] := by
  rw [labelTry] at h
  cases hp : ciPfx label cs with
  | none => simp only [hp] at h; exact absurd h (by simp)
  | some r =>
    simp only [hp] at h
    obtain ⟨hr, hlen⟩ := ciPfx_drop hp
    by_cases hre : r = []
    · rw [if_pos hre] at h; exact absurd h (by simp)
    · rw [if_neg hre] at h
      simp only [Option.some_inj] at h
      refine ⟨label.length + min ((r.takeWhile wsColonChar).length) (r.length - 1), ?_, ?_⟩
      · rw [← h, hr, List.drop_drop]
      · rw [← h]
        intro he
        have hk := List.drop_eq_nil_iff.mp he
        have hr1 : 1 ≤ r.length := by
          cases r with
          | nil => exact absurd rfl hre
          | cons x t => simp
        omega

theorem labelCapture_shape : ∀ {line : List Char} {label g : List Char},
    labelCapture label line = some g → ∃ n, g = line.drop n ∧ g ≠ [] := by
  intro line
  induction line with
  | nil => intro label g h; simp [labelCapture] at h
  | cons c rest ih =>
    intro label g h
    rw [labelCapture] at h
    rcases (Option.orElse_eq_some _ _ _).mp h with h1 | ⟨_, h1⟩
    · exact labelTry_shape h1
    · obtain ⟨n, hg, hne⟩ := ih h1
      exact ⟨n + 1, by simpa using hg, hne⟩

theorem labelCapture_strip_ne {line label g : List Char}
    (hlast : LastNotWs line) (h : labelCapture label line = some g) :
    pyStrip g ≠ [] := by
  obtain ⟨n, hg, hne⟩ := labelCapture_shape h
  have hlg : g.getLast? = line.getLast? := by
    rw [hg]; exact drop_getLast?_of_ne_nil (hg ▸ hne)
  cases hgl : g.getLast? with
  | none => exact absurd (List.getLast?_eq_none_iff.mp hgl) hne
  | some c =>
    have hcw : wsChar c = false := hlast c (by rw [← hlg, hgl])
    exact strip_ne_nil_of_not_ws (List.mem_of_mem_getLast? hgl) hcw

theorem symCapture_ne_nil : ∀ {line g : List Char},
    symCapture line = some g → g ≠ [] := by
  intro line
  induction line with
  | nil => intro g h; simp [symCapture] at h
  | cons c rest ih =>
    intro g h
    rw [symCapture] at h
    rcases (Option.orElse_eq_some _ _ _).mp h with h1 | ⟨_, h1⟩
    · rw [symTry] at h1
      cases hp : ciPfx (str "symbol") (c :: rest) with
      | none => simp only [hp] at h1; exact absurd h1 (by simp)
      | some r =>
        simp only [hp] at h1
        by_cases hg : (r.dropWhile wsColonChar).takeWhile wordChar = []
        · rw [if_pos hg] at h1; exact absurd h1 (by simp)
        · rw [if_neg hg] at h1
          simp only [Option.some_inj] at h1
          exact h1 ▸ hg
    · exact ih h1

theorem upper_ne_nil {l : List Char} (h : l ≠ []) : upper l ≠ [] := by
  cases l with
  | nil => exact absurd rfl h
  | cons c t => simp [upper]

theorem scanLongShort_upper : ∀ {line g : List Char},
    scanLongShort line = some g →
    upper g = str "LONG" ∨ upper g = str "SHORT" := by
  intro line
  induction line with
  | nil => intro g h; simp [scanLongShort] at h
  | cons c rest ih =>
    intro g h
    rw [scanLongShort] at h
    rcases (Option.orElse_eq_some _ _ _).mp h with h1 | ⟨_, h1⟩
    · rw [lsTry] at h1
      cases hp : ciPfx (str "LONG") (c :: rest) with
      | some r =>
        simp only [hp, Option.some_inj] at h1
        left
        have h2 := ciPfx_take_upper hp
        rw [show (str "LONG").length = 4 from rfl] at h2
        rw [← h1, h2]
        decide
      | none =>
        simp only [hp] at h1
        cases hq : ciPfx (str "SHORT") (c :: rest) with
        | some r =>
          simp only [hq, Option.some_inj] at h1
          right
          have h2 := ciPfx_take_upper hq
          rw [show (str "SHORT").length = 5 from rfl] at h2
          rw [← h1, h2]
          decide
        | none => simp only [hq] at h1; exact absurd h1 (by simp)
    · exact ih h1

theorem scanAheadGo_ne_nil : ∀ {fuel i : Nat} {lines : List (List Char)}
    {v : List Char}, scanAheadGo lines i fuel = some v → v ≠ [] := by
  intro fuel
  induction fuel with
  | zero => intro i lines v h; simp [scanAheadGo] at h
  | succ m ih =>
    intro i lines v h
    rw [scanAheadGo] at h
    cases hg : lines.get? i with
    | none => simp only [hg] at h; exact absurd h (by simp)
    | some raw =>
      simp only [hg] at h
      split at h
      · rename_i hcond
        simp only [Option.some_inj] at h
        exact h ▸ hcond.1
      · exact ih h

theorem scanAhead_ne_nil {lines : List (List Char)} {idx : Nat}
    {v : List Char} (h : scanAhead lines idx = some v) : v ≠ [] :=
  scanAheadGo_ne_nil h

/-! ### Invariants of the labeled-line accumulator -/

theorem symbolStep_inv {line : List Char} {d : SignalData} (h : StructInv d) :
    StructInv (symbolStep line d) := by
  rw [symbolStep]
  split
  · split
    · rename_i g hc
      refine ⟨?_, h.2.1, h.2.2.1, h.2.2.2.1, h.2.2.2.2⟩
      intro v hv
      have hv' : some (if hasSub (str "SOLUSOT") (upper g) ∨
          hasSub (str "SOLUSOТ") (upper g) then str "SOLUSDT" else upper g) =
          some v := hv
      rw [← Option.some_inj.mp hv']
      split
      · decide
      · exact upper_ne_nil (symCapture_ne_nil hc)
    · exact h
  · exact h

theorem signalStep_inv {line : List Char} {d : SignalData} (h : StructInv d) :
    StructInv (signalStep line d) := by
  rw [signalStep]
  split
  · split
    · rename_i g hc
      refine ⟨h.1, ?_, h.2.2.1, h.2.2.2.1, h.2.2.2.2⟩
      intro v hv
      have hv' : some (upper g) = some v := hv
      rw [← Option.some_inj.mp hv']
      exact scanLongShort_upper hc
    · exact h
  · exact h

theorem entriesStep_inv {line : List Char} {d : SignalData}
    (hlast : LastNotWs line) (h : StructInv d) :
    StructInv (entriesStep line d) := by
  rw [entriesStep]
  split
  · split
    · rename_i g hc
      refine ⟨h.1, h.2.1, ?_, h.2.2.2.1, h.2.2.2.2⟩
      intro v hv
      have hv' : some (pyStrip g) = some v := hv
      rw [← Option.some_inj.mp hv']
      exact labelCapture_strip_ne hlast hc
    · exact h
  · exact h

theorem stoplossStep_inv {line : List Char} {d : SignalData}
    (hlast : LastNotWs line) (h : StructInv d) :
    StructInv (stoplossStep line d) := by
  rw [stoplossStep]
  split
  · split
    · rename_i g hc
      refine ⟨h.1, h.2.1, h.2.2.1, h.2.2.2.1, ?_⟩
      intro v hv
      have hv' : some (pyStrip g) = some v := hv
      rw [← Option.some_inj.mp hv']
      exact labelCapture_strip_ne hlast hc
    · exact h
  · exact h

theorem targets_update_inv {d : SignalData} {v : List Char} (h : StructInv d)
    (hv : v ≠ []) : StructInv { d with targets := some v } := by
  refine ⟨h.1, h.2.1, h.2.2.1, ?_, h.2.2.2.2⟩
  intro w hw
  have hw' : some v = some w := hw
  rw [← Option.some_inj.mp hw']
  exact hv

theorem targetsStep_inv {lines : List (List Char)} {line : List Char}
    {d d' : SignalData} (h : StructInv d)
    (hs : targetsStep lines line d = .ok d') : StructInv d' := by
  rw [targetsStep] at hs
  by_cases hg : hasSub (str "targets:") (lower line) = true
  · rw [if_pos hg] at hs
    cases hidx : listIndex lines line with
    | none => simp only [hidx] at hs; exact absurd hs (by simp)
    | some idx =>
      simp only [hidx] at hs
      cases hlc : labelCapture (str "targets") line with
      | some g =>
        simp only [hlc] at hs
        by_cases hv : pyStrip g ≠ [] ∧ pyStrip g ≠ [':']
        · rw [if_pos hv] at hs
          simp only [Except.ok.injEq] at hs
          exact hs ▸ targets_update_inv h hv.1
        · rw [if_neg hv] at hs
          cases hsc : scanAhead lines idx with
          | some nl =>
            simp only [hsc, Except.ok.injEq] at hs
            exact hs ▸ targets_update_inv h (scanAhead_ne_nil hsc)
          | none =>
            simp only [hsc, Except.ok.injEq] at hs
            exact hs ▸ h
      | none =>
        simp only [hlc] at hs
        cases hsc : scanAhead lines idx with
        | some nl =>
          simp only [hsc, Except.ok.injEq] at hs
          exact hs ▸ targets_update_inv h (scanAhead_ne_nil hsc)
        | none =>
          simp only [hsc, Except.ok.injEq] at hs
          exact hs ▸ h
  · rw [if_neg hg] at hs
    simp only [Except.ok.injEq] at hs
    exact hs ▸ h

theorem structLine_inv {lines : List (List Char)} {d d' : SignalData}
    {raw : List Char} (h : StructInv d)
    (hs : structLine lines d raw = .ok d') : StructInv d' := by
  rw [structLine] at hs
  split at hs
  · cases hs; exact h
  · exact targetsStep_inv
      (stoplossStep_inv (pyStrip_last raw)
        (entriesStep_inv (pyStrip_last raw)
          (signalStep_inv (symbolStep_inv h)))) hs

theorem structFold_inv {lines : List (List Char)} : ∀ {ls : List (List Char)}
    {d d' : SignalData}, StructInv d → structFold lines ls d = .ok d' →
    StructInv d' := by
  intro ls
  induction ls with
  | nil =>
    intro d d' h hs
    rw [structFold] at hs
    cases hs
    exact h
  | cons l t ih =>
    intro d d' h hs
    rw [structFold] at hs
    cases hl : structLine lines d l with
    | error e => rw [hl] at hs; exact absurd hs (by simp)
    | ok d2 =>
      rw [hl] at hs
      exact ih (structLine_inv h hl) hs

theorem fieldTruthy_some {v : List Char} (h : v ≠ []) :
    fieldTruthy (some v) = true := by
  cases v with
  | nil => exact absurd rfl h
  | cons c t => simp [fieldTruthy]

theorem validate_of_complete_inv {d : SignalData} (hc : complete d = true)
    (h : StructInv d) : validate_signal_data d = true := by
  obtain ⟨h1, h2, h3, h4, h5⟩ := h
  rw [complete] at hc
  simp only [Bool.and_eq_true, Option.isSome_iff_exists] at hc
  obtain ⟨⟨⟨⟨⟨sy, hsy⟩, ⟨st, hst⟩⟩, ⟨en, hen⟩⟩, ⟨tg, htg⟩⟩, ⟨sl, hsl⟩⟩ := hc
  have hstv := h2 st hst
  have hstne : st ≠ [] := by
    rcases hstv with hh | hh <;> subst hh <;> decide
  rw [validate_signal_data, hsy, hst, hen, htg, hsl,
    fieldTruthy_some (h1 sy hsy), fieldTruthy_some hstne,
    fieldTruthy_some (h3 en hen), fieldTruthy_some (h4 tg htg),
    fieldTruthy_some (h5 sl hsl)]
  rcases hstv with hh | hh <;> subst hh <;> simp

theorem struct_empty_inv : StructInv SignalData.empty := by
  refine ⟨?_, ?_, ?_, ?_, ?_⟩ <;> intro v hv <;> exact absurd hv (by
    simp [SignalData.empty])

theorem parse_structured_valid {cs : List Char} {d : SignalData}
    (h : parse_structured_text cs = some d) :
    validate_signal_data d = true := by
  rw [parse_structured_text] at h
  cases hf : structFold (splitNl cs) (splitNl cs) SignalData.empty with
  | error e => simp only [hf] at h; exact absurd h (by simp)
  | ok d2 =>
    simp only [hf] at h
    by_cases hc : complete d2 = true
    · rw [if_pos hc] at h
      cases h
      exact validate_of_complete_inv hc (structFold_inv struct_empty_inv hf)
    · rw [if_neg hc] at h
      exact absurd h (by simp)

/-! ### Inversion lemmas for the cascade extractors -/

theorem tryPatterns_some {cs : List Char} {check : List Char → Option (List Char)}
    : ∀ {ps : List Pat} {v : List Char}, tryPatterns cs check ps = some v →
    ∃ m, check m = some v := by
  intro ps
  induction ps with
  | nil => intro v h; simp [tryPatterns] at h
  | cons p rest ih =>
    intro v h
    rw [tryPatterns] at h
    rcases (Option.orElse_eq_some _ _ _).mp h with h1 | ⟨_, h1⟩
    · cases hm : reSearch p.pre p.grp p.post cs with
      | none => simp only [hm] at h1; exact absurd h1 (by simp)
      | some m => simp only [hm] at h1; exact ⟨m, h1⟩
    · exact ih h1

theorem symbolCheck_some {g v : List Char} (h : symbolCheck g = some v) :
    3 ≤ v.length ∧ v.length ≤ 10 ∧ (!v.isEmpty && v.all alphaChar) = true := by
  rw [symbolCheck] at h
  split at h
  · rename_i hcond
    simp only [Option.some_inj] at h
    exact h ▸ hcond
  · exact absurd h (by simp)

theorem signalCheck_some {g v : List Char} (h : signalCheck g = some v) :
    v = str "LONG" ∨ v = str "SHORT" := by
  rw [signalCheck] at h
  split at h
  · simp only [Option.some_inj] at h; exact Or.inl h.symm
  · split at h
    · simp only [Option.some_inj] at h; exact Or.inr h.symm
    · split at h
      · rename_i hcond
        simp only [Option.some_inj] at h
        rcases hcond with hh | hh
        · exact Or.inl (h ▸ hh)
        · exact Or.inr (h ▸ hh)
      · exact absurd h (by simp)

theorem priceCheck_some {g v : List Char} (h : priceCheck g = some v) :
    v ≠ [] ∧ clean_price_data v = v := by
  rw [priceCheck] at h
  split at h
  · exact absurd h (by simp)
  · rename_i hne
    simp only [Option.some_inj] at h
    subst h
    exact ⟨hne, clean_idem _⟩

theorem tfInner_some : ∀ {fuel j : Nat} {lines : List (List Char)}
    {v : List Char}, tfInner lines j fuel = some v →
    v ≠ [] ∧ clean_price_data v = v := by
  intro fuel
  induction fuel with
  | zero => intro j lines v h; simp [tfInner] at h
  | succ m ih =>
    intro j lines v h
    rw [tfInner] at h
    cases hg : lines.get? j with
    | none => simp only [hg] at h; exact absurd h (by simp)
    | some raw =>
      simp only [hg] at h
      split at h
      · rcases (Option.orElse_eq_some _ _ _).mp h with h1 | ⟨_, h1⟩
        · split at h1
          · rename_i hne
            simp only [Option.some_inj] at h1
            subst h1
            exact ⟨hne, clean_idem _⟩
          · exact absurd h1 (by simp)
        · exact ih h1
      · exact ih h

theorem tfOuter_some {lines : List (List Char)} : ∀ {ls : List (List Char)}
    {i : Nat} {v : List Char}, tfOuter lines i ls = some v →
    v ≠ [] ∧ clean_price_data v = v := by
  intro ls
  induction ls with
  | nil => intro i v h; simp [tfOuter] at h
  | cons l rest ih =>
    intro i v h
    rw [tfOuter] at h
    rcases (Option.orElse_eq_some _ _ _).mp h with h1 | ⟨_, h1⟩
    · split at h1
      · exact tfInner_some h1
      · exact absurd h1 (by simp)
    · exact ih h1

theorem extract_symbol_some {cs s : List Char}
    (h : extract_symbol cs = some s) :
    3 ≤ s.length ∧ s.length ≤ 10 ∧ (!s.isEmpty && s.all alphaChar) = true := by
  obtain ⟨m, hm⟩ := tryPatterns_some h
  exact symbolCheck_some hm

theorem extract_signal_type_some {cs d : List Char}
    (h : extract_signal_type cs = some d) :
    d = str "LONG" ∨ d = str "SHORT" := by
  obtain ⟨m, hm⟩ := tryPatterns_some h
  exact signalCheck_some hm

theorem extract_entries_some {cs e : List Char}
    (h : extract_entries cs = some e) : e ≠ [] ∧ clean_price_data e = e := by
  obtain ⟨m, hm⟩ := tryPatterns_some h
  exact priceCheck_some hm

theorem extract_targets_some {cs t : List Char}
    (h : extract_targets cs = some t) : t ≠ [] ∧ clean_price_data t = t := by
  rw [extract_targets] at h
  rcases (Option.orElse_eq_some _ _ _).mp h with h1 | ⟨_, h1⟩
  · obtain ⟨m, hm⟩ := tryPatterns_some h1
    exact priceCheck_some hm
  · exact tfOuter_some h1

theorem extract_stoploss_some {cs t : List Char}
    (h : extract_stoploss cs = some t) : t ≠ [] ∧ clean_price_data t = t := by
  obtain ⟨m, hm⟩ := tryPatterns_some h
  exact priceCheck_some hm

theorem sig_ne_nil {d : List Char} (h : d = str "LONG" ∨ d = str "SHORT") :
    d ≠ [] := by
  rcases h with hh | hh <;> subst hh <;> decide

/-- Every record `parse_signal` returns satisfies the Record Validator's
predicate, on both paths. -/
theorem parse_signal_valid : ∀ {cs : List Char} {d : SignalData},
    parse_signal cs = some d → validate_signal_data d = true := by
  intro cs d h
  rw [parse_signal] at h
  cases hst : parse_structured_text cs with
  | some d2 =>
    simp only [hst, Option.some_inj] at h
    exact h ▸ parse_structured_valid hst
  | none =>
    simp only [hst] at h
    cases hsy : extract_symbol (upper cs) with
    | none => simp only [hsy] at h; exact absurd h (by simp)
    | some sy =>
      simp only [hsy] at h
      cases hty : extract_signal_type (upper cs) with
      | none => simp only [hty] at h; exact absurd h (by simp)
      | some st =>
        simp only [hty] at h
        cases hen : extract_entries (upper cs) with
        | none => simp only [hen] at h; exact absurd h (by simp)
        | some en =>
          simp only [hen] at h
          cases htg : extract_targets (upper cs) with
          | none => simp only [htg] at h; exact absurd h (by simp)
          | some tg =>
            simp only [htg] at h
            cases hsl : extract_stoploss (upper cs) with
            | none => simp only [hsl] at h; exact absurd h (by simp)
            | some sl =>
              simp only [hsl, Option.some_inj] at h
              subst h
              have hsy' := extract_symbol_some hsy
              have hsyne : sy ≠ [] := by
                intro he
                rw [he] at hsy'
                simp at hsy'
              have hty' := extract_signal_type_some hty
              rw [validate_signal_data]
              simp only [fieldTruthy_some hsyne, fieldTruthy_some (sig_ne_nil hty'),
                fieldTruthy_some (extract_entries_some hen).1,
                fieldTruthy_some (extract_targets_some htg).1,
                fieldTruthy_some (extract_stoploss_some hsl).1]
              rcases hty' with hh | hh <;> subst hh <;> simp

/-! ### Claim theorems -/

/-- C1, counterexample: on a labeled input `parse_signal` returns a record
while invoking `validate_signal_data` zero times, so the record is not routed
through the Record Validator before being returned. -/
theorem C1_counterexample :
    (parse_signal_validator_calls (str "Symbol: BTC\nSignalType: LONG\nEntries: 60000-61000\nStopLoss: 58000\nTargets: 63000 65000")).1 =
      some ⟨some (str "BTC"), some (str "LONG"), some (str "60000-61000"),
        some (str "63000 65000"), some (str "58000")⟩ ∧
    (parse_signal_validator_calls (str "Symbol: BTC\nSignalType: LONG\nEntries: 60000-61000\nStopLoss: 58000\nTargets: 63000 65000")).2 = 0 :=
  ⟨by decide, rfl⟩

/-- C1, amended: `parse_signal` never invokes `validate_signal_data` (the call
count of the instrumented body is zero for every input); nevertheless every
record it returns satisfies the validator's predicate. -/
theorem C1_validator_not_invoked (cs : List Char) (d : SignalData)
    (h : (parse_signal_validator_calls cs).1 = some d) :
    (parse_signal_validator_calls cs).2 = 0 ∧ validate_signal_data d = true :=
  ⟨rfl, parse_signal_valid h⟩

/-- C1, witness: the amended theorem applied to a concrete labeled input. -/
theorem C1_witness :
    (parse_signal_validator_calls (str "Symbol: BTC\nSignalType: LONG\nEntries: 60000-61000\nStopLoss: 58000\nTargets: 63000 65000")).1 =
      some ⟨some (str "BTC"), some (str "LONG"), some (str "60000-61000"),
        some (str "63000 65000"), some (str "58000")⟩ ∧
    ((parse_signal_validator_calls (str "Symbol: BTC\nSignalType: LONG\nEntries: 60000-61000\nStopLoss: 58000\nTargets: 63000 65000")).2 = 0 ∧
      validate_signal_data ⟨some (str "BTC"), some (str "LONG"),
        some (str "60000-61000"), some (str "63000 65000"),
        some (str "58000")⟩ = true) :=
  ⟨by decide, C1_validator_not_invoked _ _ (by decide)⟩

/-- C2: whenever the Labeled-Line Parser produces a complete record,
`parse_signal` returns exactly that record (the cascade never contributes). -/
theorem C2_label_precedence (cs : List Char) (r : SignalData)
    (h : parse_structured_text cs = some r) : parse_signal cs = some r := by
  simp only [parse_signal, h]

/-- C2, witness: a text whose labeled lines resolve the direction to `SHORT`
while the cascade's direction extractor would resolve the stale leading `BUY`
to `LONG`; the labeled record is returned. -/
theorem C2_witness :
    parse_structured_text (str "BUY the dip\nSymbol: ETH\nSignalType: SHORT\nEntries: 1.5\nStopLoss: 2.5\nTargets: 3.5") =
      some ⟨some (str "ETH"), some (str "SHORT"), some (str "1.5"),
        some (str "3.5"), some (str "2.5")⟩ ∧
    parse_signal (str "BUY the dip\nSymbol: ETH\nSignalType: SHORT\nEntries: 1.5\nStopLoss: 2.5\nTargets: 3.5") =
      some ⟨some (str "ETH"), some (str "SHORT"), some (str "1.5"),
        some (str "3.5"), some (str "2.5")⟩ ∧
    extract_signal_type (upper (str "BUY the dip\nSymbol: ETH\nSignalType: SHORT\nEntries: 1.5\nStopLoss: 2.5\nTargets: 3.5")) =
      some (str "LONG") :=
  ⟨by decide, C2_label_precedence _ _ (by decide), by decide⟩

/-- C3, counterexample: through the labeled-line path `parse_signal` accepts
`BTC123` — six characters, not purely alphabetic — as the symbol field. -/
theorem C3_counterexample :
    parse_signal (str "symbol: BTC123\nsignaltype: LONG\nentries: 1.5\nstoploss: 2.5\ntargets: 3.5") =
      some ⟨some (str "BTC123"), some (str "LONG"), some (str "1.5"),
        some (str "3.5"), some (str "2.5")⟩ ∧
    (str "BTC123").all alphaChar = false :=
  ⟨by decide, by decide⟩

/-- C3, amended: the 3-10 alphabetic bound holds on the cascade path — the
symbol extractor never returns a token outside it — while the labeled-line
path stores any word token without a length or alphabet check. -/
theorem C3_cascade_symbol_bound (cs s : List Char)
    (h : extract_symbol cs = some s) :
    3 ≤ s.length ∧ s.length ≤ 10 ∧ s.all alphaChar = true := by
  have h2 := extract_symbol_some h
  have h3 := h2.2.2
  simp only [Bool.and_eq_true] at h3
  exact ⟨h2.1, h2.2.1, h3.2⟩

/-- C3, witness: the amended bound at a concrete cascade extraction. -/
theorem C3_witness :
    extract_symbol (str "SYMBOL: BTC") = some (str "BTC") ∧
    (3 ≤ (str "BTC").length ∧ (str "BTC").length ≤ 10 ∧
      (str "BTC").all alphaChar = true) :=
  ⟨by decide, C3_cascade_symbol_bound (str "SYMBOL: BTC") (str "BTC") (by decide)⟩

/-- C4, counterexample: on the labeled-line path the entries value keeps its
interior whitespace runs — the record stores `1.5  -  2.5` although the Price
Normalizer would collapse it to `1.5-2.5`. -/
theorem C4_counterexample :
    parse_signal (str "symbol: BTC\nsignaltype: LONG\nentries: 1.5  -  2.5\nstoploss: 3.5\ntargets: 4.5") =
      some ⟨some (str "BTC"), some (str "LONG"), some (str "1.5  -  2.5"),
        some (str "4.5"), some (str "3.5")⟩ ∧
    clean_price_data (str "1.5  -  2.5") = str "1.5-2.5" ∧
    str "1.5  -  2.5" ≠ str "1.5-2.5" :=
  ⟨by decide, by decide, by decide⟩

/-- C4, amended: on the cascade path every returned entries value is
whitespace-normalized — it is a fixed point of the Price Normalizer; the
labeled-line path only trims the ends of the captured value. -/
theorem C4_cascade_entries_normalized (cs e : List Char)
    (h : extract_entries cs = some e) : clean_price_data e = e :=
  (extract_entries_some h).2

/-- C4, witness: the amended property at a concrete cascade extraction. -/
theorem C4_witness :
    extract_entries (str "ENTRIES: 5.5") = some (str "5.5") ∧
    clean_price_data (str "5.5") = str "5.5" :=
  ⟨by decide,
   C4_cascade_entries_normalized (str "ENTRIES: 5.5") (str "5.5") (by decide)⟩

/-- C5: the labeled-line direction step stores only an upper-cased `LONG` or
`SHORT` (or leaves the field unchanged), and a direction-labeled line whose
token is `BUY` or `SELL` stores nothing. -/
theorem C5_labeled_direction :
    (∀ line d, (signalStep line d).signal_type = d.signal_type ∨
      (signalStep line d).signal_type = some (str "LONG") ∨
      (signalStep line d).signal_type = some (str "SHORT")) ∧
    (∀ d, signalStep (str "SignalType: BUY") d = d) ∧
    (∀ d, signalStep (str "Signal Type: SELL") d = d) := by
  refine ⟨?_, ?_, ?_⟩
  · intro line d
    rw [signalStep]
    split
    · cases hc : scanLongShort line with
      | none => left; rfl
      | some g =>
        right
        rcases scanLongShort_upper hc with hh | hh
        · left
          show some (upper g) = some (str "LONG")
          rw [hh]
        · right
          show some (upper g) = some (str "SHORT")
          rw [hh]
    · left; rfl
  · intro d
    rw [signalStep, if_pos (by decide),
      show scanLongShort (str "SignalType: BUY") = none from by decide]
  · intro d
    rw [signalStep, if_pos (by decide),
      show scanLongShort (str "Signal Type: SELL") = none from by decide]

/-- C6: the cascade direction check maps a captured `BUY` to `LONG`, a
captured `SELL` to `SHORT`, passes `LONG`/`SHORT` through, and the extractor
only ever returns `LONG` or `SHORT`. -/
theorem C6_synonym_normalization :
    (∀ g, upper g = str "BUY" → signalCheck g = some (str "LONG")) ∧
    (∀ g, upper g = str "SELL" → signalCheck g = some (str "SHORT")) ∧
    (∀ g, upper g = str "LONG" → signalCheck g = some (str "LONG")) ∧
    (∀ g, upper g = str "SHORT" → signalCheck g = some (str "SHORT")) ∧
    (∀ cs d, extract_signal_type cs = some d →
      d = str "LONG" ∨ d = str "SHORT") := by
  refine ⟨?_, ?_, ?_, ?_, fun cs d h => extract_signal_type_some h⟩ <;>
    intro g h <;> simp only [signalCheck, h] <;> decide

/-- C6, witness: the normalization applied at concrete captures, and the
invariant applied to a concrete cascade extraction. -/
theorem C6_witness :
    signalCheck (str "buy") = some (str "LONG") ∧
    signalCheck (str "sell") = some (str "SHORT") ∧
    signalCheck (str "Long") = some (str "LONG") ∧
    signalCheck (str "Short") = some (str "SHORT") ∧
    extract_signal_type (str "SELL EVERYTHING") = some (str "SHORT") ∧
    (str "SHORT" = str "LONG" ∨ str "SHORT" = str "SHORT") :=
  ⟨C6_synonym_normalization.1 _ (by decide),
   C6_synonym_normalization.2.1 _ (by decide),
   C6_synonym_normalization.2.2.1 _ (by decide),
   C6_synonym_normalization.2.2.2.1 _ (by decide),
   by decide,
   C6_synonym_normalization.2.2.2.2 (str "SELL EVERYTHING") (str "SHORT")
     (by decide)⟩

/-- C7: at the failing input the second bare `Targets:` label re-locates the
first occurrence via `lines.index`, so the record keeps `$1.0` although the
four lines following that second label resolve to `$2.0`; the claim's own
single-label example does resolve to `$70000`. -/
theorem C7_targets_lookahead_bug :
    parse_signal (str "Symbol: BTC\nSignalType: LONG\nEntries: 1.0\nStopLoss: 2.0\nTargets:\n$1.0\nTargets:\n$2.0") =
      some ⟨some (str "BTC"), some (str "LONG"), some (str "1.0"),
        some (str "$1.0"), some (str "2.0")⟩ ∧
    scanAhead (splitNl (str "Symbol: BTC\nSignalType: LONG\nEntries: 1.0\nStopLoss: 2.0\nTargets:\n$1.0\nTargets:\n$2.0")) 6 =
      some (str "$2.0") ∧
    parse_signal (str "Targets:\n$70000\n$72000\nSymbol: BTC\nSignalType: LONG\nEntries: 1.0\nStopLoss: 2.0") =
      some ⟨some (str "BTC"), some (str "LONG"), some (str "1.0"),
        some (str "$70000"), some (str "2.0")⟩ :=
  ⟨by decide, by decide, by decide⟩

/-- C8: the Price Normalizer is idempotent — normalizing an already
normalized price string returns the identical string. -/
theorem C8_normalizer_idempotent (s : List Char) :
    clean_price_data (clean_price_data s) = clean_price_data s :=
  clean_idem s

/-- C9, counterexample: `validate_signal_data` on the malformed input `None`
propagates a `TypeError` instead of converting it to `false`. -/
theorem C9_counterexample :
    validate_signal_data_dyn PyVal.pyNone = Except.error PyErr.typeErr ∧
    validate_signal_data_dyn PyVal.pyNone ≠ Except.ok false :=
  ⟨rfl, fun h => Except.noConfusion h⟩

/-- C9, amended: `parse_signal` catches the fault a malformed input type
raises in its body and converts it to the no-record result;
`validate_signal_data` has no such boundary guard. -/
theorem C9_parse_boundary_guard (v : PyVal) (h : isPyStr v = false) :
    parse_signal_guarded v = none := by
  cases v with
  | pyStr s => simp [isPyStr] at h
  | pyDict d => rfl
  | pyNone => rfl

/-- C9, witness: the amended theorem applied to the malformed input `None`. -/
theorem C9_witness :
    isPyStr PyVal.pyNone = false ∧ parse_signal_guarded PyVal.pyNone = none :=
  ⟨rfl, C9_parse_boundary_guard PyVal.pyNone rfl⟩

/-- C10: every record `parse_signal` returns — on either path, although the
validator is never invoked on it — has all five fields present and non-empty,
a canonical direction, and satisfies `validate_signal_data`. -/
theorem C10_returned_records_validate (cs : List Char) (d : SignalData)
    (h : parse_signal cs = some d) :
    fieldTruthy d.symbol = true ∧ fieldTruthy d.signal_type = true ∧
    fieldTruthy d.entries = true ∧ fieldTruthy d.targets = true ∧
    fieldTruthy d.stoploss = true ∧
    (d.signal_type = some (str "LONG") ∨ d.signal_type = some (str "SHORT")) ∧
    validate_signal_data d = true := by
  have hv := parse_signal_valid h
  rw [validate_signal_data] at hv
  simp only [Bool.and_eq_true, Bool.or_eq_true, decide_eq_true_eq] at hv
  exact ⟨hv.1.1.1.1.1, hv.1.1.1.1.2, hv.1.1.1.2, hv.1.1.2, hv.1.2, hv.2,
    parse_signal_valid h⟩

/-- C10, witness: the invariant applied to a concrete cascade-path record. -/
theorem C10_witness :
    parse_signal (str "ETHUSDT LONG entry 3000-3100 tp 3300 sl 2900") =
      some ⟨some (str "ETH"), some (str "LONG"), some (str "3000-3100"),
        some (str "3300"), some (str "2900")⟩ ∧
    validate_signal_data ⟨some (str "ETH"), some (str "LONG"),
      some (str "3000-3100"), some (str "3300"), some (str "2900")⟩ = true :=
  ⟨by decide,
   (C10_returned_records_validate (str "ETHUSDT LONG entry 3000-3100 tp 3300 sl 2900")
     ⟨some (str "ETH"), some (str "LONG"), some (str "3000-3100"),
       some (str "3300"), some (str "2900")⟩ (by decide)).2.2.2.2.2.2⟩

end SignalSpec
